import Mathlib

/-!
Verification of the repository-access and diff-computation core of the
`differing` server (Go source: `main.go`).

The Go code is shallowly embedded: Go strings become `List Char` (a Go
string is a byte/char sequence), the pieces of the Go standard library the
core uses (`strings.Split`, `strings.Fields`, `strings.TrimSpace`,
`strings.HasPrefix`, `strings.TrimPrefix`, `strconv.Atoi`,
`path/filepath.Clean/Join/IsAbs/Abs`) are given executable Lean
definitions, and every subprocess invocation of the version-control tool
is an oracle field of an explicit repository-state structure.  The HTTP
handlers (`getDiffs`, `getDiffFiles`, `getFileDiff`, `saveFile`,
`getDiffCommits`, `amendCommitMessage`) and the validator
(`validateRepoPath`) are translated statement by statement.
-/

set_option maxRecDepth 10000

/-- A Go string, embedded as its character sequence. -/
abbrev GoStr := List Char

/-- Coerce a Lean string literal to the embedding's string type. -/
def gs (s : String) : GoStr := s.data

/-! ### Go standard library: `strings`, `strconv` -/

/-- `unicode.IsSpace` restricted to the ASCII whitespace the inputs here
can contain (space, tab, newline, vertical tab, form feed, carriage
return). -/
def goIsSpace (c : Char) : Bool :=
  c = ' ' || c = '\t' || c = '\n' || c = '\x0b' || c = '\x0c' || c = '\r'

/-- Go `strings.TrimSpace`: drop whitespace from both ends. -/
def goTrimSpace (s : GoStr) : GoStr :=
  ((s.dropWhile goIsSpace).reverse.dropWhile goIsSpace).reverse

/-- Go `strings.Split` with a one-character separator (the only form the
source uses: separators `"\n"` and `"\x00"`).  `List.splitOn` has exactly
Go's semantics: splitting the empty string yields one empty piece. -/
def goSplit (sep : Char) (s : GoStr) : List GoStr :=
  s.splitOn sep

/-- Go `strings.Fields`: the maximal runs of non-whitespace characters. -/
def goFields (s : GoStr) : List GoStr :=
  (s.splitOnP goIsSpace).filter (fun w => w ≠ [])

/-- Go `strings.HasPrefix s pre`. -/
def goStartsWith (s pre : GoStr) : Bool :=
  pre.isPrefixOf s

/-- Go `strings.TrimPrefix s pre`: drop `pre` from the front when present. -/
def goTrimStart (s pre : GoStr) : GoStr :=
  if pre.isPrefixOf s then s.drop pre.length else s

/-- Numeric value of a decimal digit character, `none` otherwise. -/
def digitVal (c : Char) : Option Nat :=
  if '0' ≤ c ∧ c ≤ '9' then some (c.toNat - '0'.toNat) else none

/-- One step of decimal accumulation; a non-digit poisons the parse. -/
def digitStep (acc : Option Nat) (c : Char) : Option Nat :=
  match acc, digitVal c with
  | some a, some d => some (10 * a + d)
  | _, _ => none

/-- Value of a nonempty all-digit string, `none` otherwise. -/
def digitsVal (s : GoStr) : Option Nat :=
  if s = [] then none else s.foldl digitStep (some 0)

/-- Go `strconv.Atoi` as the source uses it: the error is discarded, and
on a syntax error the accompanying value is `0`.  (The callers feed it
line counts and timestamps, far below the `int64` range.) -/
def goAtoi (s : GoStr) : Int :=
  match s with
  | [] => 0
  | c :: rest =>
    if c = '+' then ((digitsVal rest).getD 0 : Nat)
    else if c = '-' then -(((digitsVal rest).getD 0 : Nat) : Int)
    else ((digitsVal (c :: rest)).getD 0 : Nat)

/-! ### Go standard library: `path/filepath` (Unix rules) -/

/-- Go `filepath.IsAbs` on Unix: the path starts with the separator. -/
def goIsAbs (p : GoStr) : Bool :=
  match p with
  | c :: _ => c = '/'
  | [] => false

/-- The path element `".."`. -/
def dotdot : GoStr := ['.', '.']

/-- The core of `filepath.Clean`: resolve `".."` elements against a stack
of already-emitted elements.  `rooted` tells whether the path is absolute
(a `".."` at the root is dropped); in a relative path unresolvable `".."`
elements accumulate at the front. -/
def resolveDots (rooted : Bool) : List GoStr → List GoStr → List GoStr
  | stack, [] => stack.reverse
  | [], part :: rest =>
    if part = dotdot then resolveDots rooted (if rooted then [] else [part]) rest
    else resolveDots rooted [part] rest
  | top :: stack', part :: rest =>
    if part = dotdot then
      (if top = dotdot then resolveDots rooted (part :: top :: stack') rest
       else resolveDots rooted stack' rest)
    else resolveDots rooted (part :: top :: stack') rest

/-- Join path elements with separators (what `filepath.Clean` writes
back into its buffer after processing the elements). -/
def joinPath : List GoStr → GoStr
  | [] => []
  | [l] => l
  | l :: l' :: rest => l ++ '/' :: joinPath (l' :: rest)

/-- Go `filepath.Clean` (Unix): lexically simplify a path by removing
repeated separators, `"."` elements, and resolvable `".."` elements. -/
def goClean (p : GoStr) : GoStr :=
  if p = [] then gs "." else
  let rooted := goIsAbs p
  let parts := (goSplit '/' p).filter (fun x => x ≠ [] ∧ x ≠ gs ".")
  let out := resolveDots rooted [] parts
  if rooted then '/' :: joinPath out
  else if out = [] then gs "." else joinPath out

/-- Go `filepath.Join` of two elements: non-empty elements are joined with
the separator and the result is cleaned; joining two empty strings is the
empty string. -/
def goJoin (a b : GoStr) : GoStr :=
  if a = [] then (if b = [] then [] else goClean b)
  else if b = [] then goClean a
  else goClean (a ++ '/' :: b)

/-- Go `filepath.Abs`: an absolute path is cleaned, a relative one is
joined onto the working directory. -/
def goAbs (cwd p : GoStr) : GoStr :=
  if goIsAbs p then goClean p else goJoin cwd p

/-- Bytewise lexicographic strict order on Go strings (Go's `<`). -/
def goStrLt : GoStr → GoStr → Bool
  | [], [] => false
  | [], _ :: _ => true
  | _ :: _, [] => false
  | a :: as, b :: bs =>
    if a < b then true else if b < a then false else goStrLt as bs

/-- Bytewise lexicographic `≤` on Go strings. -/
def goStrLe (a b : GoStr) : Bool :=
  !goStrLt b a

/-! ### Data model (the JSON records the handlers emit) -/

/-- A Go `time.Time` as the handlers build it: either `time.Now()` (the
synthetic working entry) or `time.Unix(seconds, 0)`. -/
inductive GoTime
  | now
  | unix (seconds : Int)
deriving DecidableEq, Repr

/-- The `DiffInfo` JSON record. -/
structure DiffInfo where
  id : GoStr
  message : GoStr
  author : GoStr
  timestamp : GoTime
  filesCount : Int
  additions : Int
  deletions : Int
deriving DecidableEq, Repr

/-- The `FileInfo` JSON record. -/
structure FileInfo where
  path : GoStr
  status : GoStr
  additions : Int
  deletions : Int
deriving DecidableEq, Repr

/-- The `FileDiff` JSON record. -/
structure FileDiff where
  path : GoStr
  oldContent : GoStr
  newContent : GoStr
deriving DecidableEq, Repr

/-- The `CommitInfo` JSON record. -/
structure CommitInfo where
  id : GoStr
  message : GoStr
  author : GoStr
  timestamp : GoTime
  isHead : Bool
deriving DecidableEq, Repr

/-- Subprocess-failure errors a handler turns into an HTTP 500. -/
inductive GoErr
  | gitLogFailed
  | diffFilesFailed
  | headFailed
  | commitsFailed
deriving DecidableEq, Repr

/-! ### The version-control tool as an oracle

The spec treats the tool as an opaque authoritative subprocess; each
invocation the handlers make is a field of a state structure, holding the
bytes the tool would print on stdout (`none` for a non-zero exit where the
handler checks the error). -/

/-- Join output lines with newlines, no trailing newline (the shape of
`git log --pretty=format:` and `git diff --numstat` stdout). -/
def joinLines : List GoStr → GoStr
  | [] => []
  | [l] => l
  | l :: l' :: rest => l ++ '\n' :: joinLines (l' :: rest)

/-- A well-formed output line: nonempty, no embedded newline, and no
leading or trailing whitespace (so `strings.TrimSpace` on the whole
output leaves every line intact). -/
def LineOk (l : GoStr) : Prop :=
  l ≠ [] ∧ '\n' ∉ l
    ∧ (∀ c, l.head? = some c → goIsSpace c = false)
    ∧ (∀ c, l.getLast? = some c → goIsSpace c = false)

/-- A whitespace-free, NUL-free, nonempty token (hashes, timestamps,
numstat columns, paths as modelled here). -/
def tokenOk (s : GoStr) : Prop :=
  s ≠ [] ∧ ∀ c ∈ s, goIsSpace c = false ∧ c ≠ '\x00'

/-- A free-text field git interpolates between NUL bytes (commit subject,
author name): anything without newlines or NUL bytes. -/
def fieldOk (s : GoStr) : Prop :=
  '\n' ∉ s ∧ '\x00' ∉ s

/-- The decimal digit string of a natural number, as git prints counts
and timestamps. -/
def natDecimal (n : Nat) : GoStr :=
  if n = 0 then ['0'] else ((Nat.digits 10 n).map Nat.digitChar).reverse

/-- One commit as git reports it under
`--pretty=format:%H%x00%s%x00%an%x00%at`: hash, subject line, author
name, and the decimal timestamp (kept as the printed string). -/
structure CommitData where
  hash : GoStr
  subject : GoStr
  author : GoStr
  timestampStr : GoStr
deriving DecidableEq, Repr

/-- Well-formedness of one reported commit: the hash and timestamp are
whitespace-free nonempty tokens (git prints hex hashes and decimal
timestamps), the subject and author are NUL- and newline-free text (git's
`%s` and `%an` are single-line and the format separator is NUL). -/
def commitOk (cd : CommitData) : Prop :=
  tokenOk cd.hash ∧ fieldOk cd.subject ∧ fieldOk cd.author ∧ tokenOk cd.timestampStr

/-- The log line git prints for one commit under the handlers' format:
the four fields separated by NUL bytes. -/
def logLine (cd : CommitData) : GoStr :=
  cd.hash ++ ('\x00' :: (cd.subject ++ ('\x00' :: (cd.author ++ ('\x00' :: cd.timestampStr)))))

/-- Output of `git log --pretty=format:...`: one line per commit, no
trailing newline. -/
def gitLogOutput (cs : List CommitData) : GoStr :=
  joinLines (cs.map logLine)

/-- Repository state seen by the log-driven handlers.  `commits` is the
linear history, most recent (HEAD) first. -/
structure Repo where
  commits : List CommitData
  workingNumstat : GoStr
  commitNumstat : GoStr → GoStr
deriving Inhabited

/-- `git log -n<n> --pretty=format:...`: the `n` most recent commits,
most recent first; fails on an unborn HEAD (no commits). -/
def gitLog (r : Repo) (n : Nat) : Option GoStr :=
  if r.commits = [] then none else some (gitLogOutput (r.commits.take n))

/-- `git rev-parse HEAD` (already trimmed, as the handlers use it). -/
def revParseHead (r : Repo) : Option GoStr :=
  r.commits.head?.map CommitData.hash

/-- `git log --pretty=format:... <diffID>^..HEAD`: the commits reachable
from HEAD but not from the parent of `diffID`, i.e. HEAD down through
`diffID` itself.  Fails when `diffID` is not in the history or is the
root commit (whose parent `^` does not resolve). -/
def gitLogRange (r : Repo) (diffID : GoStr) : Option GoStr :=
  match r.commits.span (fun cd => cd.hash ≠ diffID) with
  | (pre, c :: post) =>
    if post = [] then none else some (gitLogOutput (pre ++ [c]))
  | (_, []) => none

/-! ### `parseDiffStat` and `getDiffs` (main.go) -/

/-- Body of the `parseDiffStat` loop for one line of `--numstat` output. -/
def statLineAcc (acc : Int × Int × Int) (line : GoStr) : Int × Int × Int :=
  if line = [] then acc
  else
    let parts := goFields line
    if parts.length ≥ 2 then
      let a := if parts.getD 0 [] ≠ gs "-" then goAtoi (parts.getD 0 []) else 0
      let d := if parts.getD 1 [] ≠ gs "-" then goAtoi (parts.getD 1 []) else 0
      (acc.1 + a, acc.2.1 + d, acc.2.2 + 1)
    else acc

/-- `parseDiffStat`: fold `git diff --numstat` output into
`(additions, deletions, filesCount)`.  A `-` column (binary file) is
skipped for the line totals but the line still counts as a file. -/
def parseDiffStat (output : GoStr) : Int × Int × Int :=
  (goSplit '\n' (goTrimSpace output)).foldl statLineAcc (0, 0, 0)

/-- Loop body of `getDiffs`: parse one `git log` line (skipping blank or
short lines) and attach the per-commit diffstat. -/
def parseLogEntry (stat : GoStr → GoStr) (line : GoStr) : Option DiffInfo :=
  if line = [] then none
  else
    let parts := goSplit '\x00' line
    if parts.length < 4 then none
    else
      let ts := goAtoi (parts.getD 3 [])
      let s := parseDiffStat (stat (parts.getD 0 []))
      some ⟨parts.getD 0 [], parts.getD 1 [], parts.getD 2 [], .unix ts, s.2.2, s.1, s.2.1⟩

/-- The synthetic working-changes entry `getDiffs` always builds first,
from `git diff HEAD --numstat` (HEAD against the working tree, staged and
unstaged changes combined). -/
def workingDiffEntry (r : Repo) : DiffInfo :=
  let s := parseDiffStat r.workingNumstat
  ⟨gs "working", gs "Working Changes", [], .now, s.2.2, s.1, s.2.1⟩

/-- Handler `getDiffs`: the working-changes entry followed by the parsed
entries of `git log -20`; a failing `git log` is an HTTP 500. -/
def getDiffs (r : Repo) : Except GoErr (List DiffInfo) :=
  match gitLog r 20 with
  | none => .error .gitLogFailed
  | some output =>
    let lines := goSplit '\n' (goTrimSpace output)
    .ok (workingDiffEntry r :: lines.filterMap (parseLogEntry r.commitNumstat))

/-! ### `getDiffFiles` (main.go) -/

/-- Repository state seen by `getDiffFiles`.  Both oracles diff a
revision expression (the base) against the live working tree, which is
what one-revision `git diff` invocations do. -/
structure DiffRepo where
  nameStatusVsWorkTree : GoStr → Option GoStr
  numstatVsWorkTree : GoStr → GoStr → GoStr

/-- The Go `switch` mapping a `--name-status` code to a record status:
`A` is `added`, `D` is `deleted`, everything else is `modified`. -/
def statusOf (code : GoStr) : GoStr :=
  if code = gs "A" then gs "added"
  else if code = gs "D" then gs "deleted"
  else gs "modified"

/-- Loop body of `getDiffFiles`: parse one `--name-status` line and fetch
the per-file numstat against the same base (errors discarded, counts
defaulting to zero). -/
def parseNameStatusLine (dr : DiffRepo) (base : GoStr) (line : GoStr) : Option FileInfo :=
  if line = [] then none
  else
    let parts := goFields line
    if parts.length < 2 then none
    else
      let path := parts.getD 1 []
      let statParts := goFields (dr.numstatVsWorkTree base path)
      let a := if statParts.length ≥ 2 then goAtoi (statParts.getD 0 []) else 0
      let d := if statParts.length ≥ 2 then goAtoi (statParts.getD 1 []) else 0
      some ⟨path, statusOf (parts.getD 0 []), a, d⟩

/-- Handler `getDiffFiles`: choose the diff base (`HEAD` for `working`,
otherwise the commit's parent `<id>^`), list `--name-status` lines
against the working tree, and sort the records by path.  Go's
`sort.Slice` is an unstable comparison sort; the model uses insertion
sort, which satisfies the same ordering postcondition. -/
def getDiffFiles (dr : DiffRepo) (diffID : GoStr) : Except GoErr (List FileInfo) :=
  let base := if diffID = gs "working" then gs "HEAD" else diffID ++ gs "^"
  match dr.nameStatusVsWorkTree base with
  | none => .error .diffFilesFailed
  | some output =>
    let lines := goSplit '\n' (goTrimSpace output)
    let files := lines.filterMap (parseNameStatusLine dr base)
    .ok (files.insertionSort (fun a b => goStrLe a.path b.path = true))

/-! ### The rooted file handle (`os.Root`) and the working tree -/

/-- Does a name lexically escape the root?  `os.Root` refuses absolute
names and names whose resolution leaves the root directory. -/
def rootEscapes (p : GoStr) : Bool :=
  goIsAbs p || goClean p = dotdot || goStartsWith (goClean p) (dotdot ++ ['/'])

/-- Look a file up in the working tree (keyed by clean root-relative
path). -/
def treeFind (wt : List (GoStr × GoStr)) (key : GoStr) : Option GoStr :=
  (wt.find? (fun kv => kv.1 = key)).map (fun kv => kv.2)

/-- `os.Root.Open` / `os.Root.OpenFile` without `O_CREATE`: resolve the
name inside the root, refusing escaping names; opening a file that does
not exist fails. -/
def rootOpen (wt : List (GoStr × GoStr)) (p : GoStr) : Option GoStr :=
  if rootEscapes p then none else treeFind wt (goClean p)

/-- Overwrite the content stored at `key` (the effect of
`O_WRONLY|O_TRUNC` plus a full write).  No new entry ever appears. -/
def treeSet (wt : List (GoStr × GoStr)) (key content : GoStr) : List (GoStr × GoStr) :=
  wt.map (fun kv => if kv.1 = key then (kv.1, content) else kv)

/-! ### `getFileDiff` (final version, using the secure root) -/

/-- Repository state seen by `getFileDiff`: the blob oracle
(`git show <rev>:<path>`, keyed by the whole argument string) and the
on-disk working tree under the secure root. -/
structure FsRepo where
  showBlob : GoStr → Option GoStr
  workTree : List (GoStr × GoStr)

/-- Handler `getFileDiff`: old content is the blob at `HEAD` (for
`working`) or at the commit's parent (`<id>^`), with a failing `git show`
ignored so a missing blob becomes the empty string; new content is the
working-tree file through the secure root, a missing file likewise
becoming the empty string. -/
def getFileDiff (fr : FsRepo) (diffID rawPath : GoStr) : FileDiff :=
  let filePath := goTrimStart rawPath (gs "/")
  let showArg :=
    if diffID = gs "working" then gs "HEAD:" ++ filePath
    else diffID ++ gs "^:" ++ filePath
  let oldContent := (fr.showBlob showArg).getD []
  let newContent :=
    match rootOpen fr.workTree filePath with
    | some fileData => fileData
    | none => []
  ⟨filePath, oldContent, newContent⟩

/-! ### `validateRepoPath` and `saveFile` (main.go) -/

/-- Process-wide state the validator and `saveFile` touch: the working
directory (the base `filepath.Abs` resolves against), the git root from
`git rev-parse --show-toplevel`, the tracked-file oracle
(`git -C <root> ls-files --error-unmatch <path>` exiting 0), and the
on-disk working tree. -/
structure SysState where
  cwd : GoStr
  gitRoot : GoStr
  tracked : GoStr → Bool
  workTree : List (GoStr × GoStr)

/-- The spec's containment check, in the spec's own words: the
normalization of root joined with the path has the root as a prefix
(with a separator boundary) or equals the root. -/
def specInRoot (root p : GoStr) : Prop :=
  goClean (root ++ '/' :: p) = goClean root
    ∨ (goClean root ++ ['/']) <+: goClean (root ++ '/' :: p)

/-- The three rejection shapes of `validateRepoPath`. -/
inductive PathError
  | invalidPath
  | notTracked
  | outsideRepo
deriving DecidableEq, Repr

/-- `validateRepoPath`: reject empty and absolute paths, then require the
path tracked by git, then independently require that root+path, joined
and normalized, stays inside the repository root. -/
def validateRepoPath (st : SysState) (filePath : GoStr) : Except PathError Unit :=
  if filePath = [] ∨ goIsAbs filePath then .error .invalidPath
  else if ¬ st.tracked filePath then .error .notTracked
  else
    let fullPath := goJoin st.gitRoot filePath
    let absRepoDir := goAbs st.cwd st.gitRoot
    let absFilePath := goAbs st.cwd fullPath
    if ¬ goStartsWith absFilePath (absRepoDir ++ ['/']) ∧ absFilePath ≠ absRepoDir
    then .error .outsideRepo
    else .ok ()

/-- Result of the `saveFile` handler: the HTTP status it answers and the
working tree after it ran. -/
structure SaveOutcome where
  status : Nat
  workTree : List (GoStr × GoStr)
deriving DecidableEq, Repr

/-- Handler `saveFile`: decode the body, validate the path (403 on
rejection, before any filesystem access), then open through the secure
root with `O_WRONLY|O_TRUNC` — no `O_CREATE`, so a missing file is a 500
— and overwrite the content. -/
def saveFile (st : SysState) (rawPath : GoStr) (body : Option GoStr) : SaveOutcome :=
  let filePath := goTrimStart rawPath (gs "/")
  match body with
  | none => ⟨400, st.workTree⟩
  | some content =>
    match validateRepoPath st filePath with
    | .error _ => ⟨403, st.workTree⟩
    | .ok _ =>
      match rootOpen st.workTree filePath with
      | none => ⟨500, st.workTree⟩
      | some _ => ⟨200, treeSet st.workTree (goClean filePath) content⟩

/-! ### `getDiffCommits` (final version) -/

/-- Loop body of `getDiffCommits`: parse one log line into a
`CommitInfo`, marking it as HEAD when its hash equals the resolved HEAD
hash. -/
def parseCommitLine (headHash : GoStr) (line : GoStr) : Option CommitInfo :=
  if line = [] then none
  else
    let parts := goSplit '\x00' line
    if parts.length < 4 then none
    else
      some ⟨parts.getD 0 [], parts.getD 1 [], parts.getD 2 [],
        .unix (goAtoi (parts.getD 3 [])), decide (parts.getD 0 [] = headHash)⟩

/-- Handler `getDiffCommits`: resolve HEAD, then log `<id>^..HEAD` (or
the recent-20 window for `working`); if the range fails, fall back to
`git log -1`; parse each line, marking the HEAD record. -/
def getDiffCommits (r : Repo) (diffID : GoStr) : Except GoErr (List CommitInfo) :=
  match revParseHead r with
  | none => .error .headFailed
  | some headHash =>
    let logOut :=
      if diffID = gs "working" then gitLog r 20 else gitLogRange r diffID
    match (match logOut with | some o => some o | none => gitLog r 1) with
    | none => .error .commitsFailed
    | some output =>
      let lines := goSplit '\n' (goTrimSpace output)
      .ok (lines.filterMap (parseCommitLine headHash))

/-! ### `amendCommitMessage` (final version) -/

/-- Repository state seen by `amendCommitMessage`: the resolvable HEAD
hash, the remote-tracking probe (`git branch -r --contains <h>` printing
anything), and the amend subprocess itself, which on success moves HEAD
to a fresh hash determined by the new message. -/
structure AmendRepo where
  head : Option GoStr
  remotePushed : GoStr → Bool
  amendResult : GoStr → Option GoStr

/-- Result of the `amendCommitMessage` handler: HTTP status, the HEAD
afterwards, whether the amend subprocess was invoked at all, and whether
the possibly-pushed warning was attached. -/
structure AmendOutcome where
  status : Nat
  head : Option GoStr
  amendInvoked : Bool
  warning : Bool
deriving DecidableEq, Repr

/-- Handler `amendCommitMessage`: decode the body, reject a blank
message (400), resolve HEAD (500 on failure), reject any target other
than HEAD (403) without touching the repository, then probe the remote
and run the amend; on success report the new HEAD and attach the warning
when the probe found the old HEAD on a remote branch. -/
def amendCommitMessage (r : AmendRepo) (commitID : GoStr) (body : Option GoStr) :
    AmendOutcome :=
  match body with
  | none => ⟨400, r.head, false, false⟩
  | some msg =>
    if goTrimSpace msg = [] then ⟨400, r.head, false, false⟩
    else
      match r.head with
      | none => ⟨500, r.head, false, false⟩
      | some headHash =>
        if commitID ≠ headHash then ⟨403, r.head, false, false⟩
        else
          let isPushed := r.remotePushed headHash
          match r.amendResult msg with
          | none => ⟨500, r.head, true, false⟩
          | some newHash => ⟨200, some newHash, true, isPushed⟩

/-! ### Oracle output shapes for `--numstat` and `--name-status` -/

/-- One `git diff --numstat` line's data: per-file added and deleted line
counts, `none` for the `-` a binary file gets, and the path. -/
structure NumstatEntry where
  adds : Option Nat
  dels : Option Nat
  path : GoStr
deriving DecidableEq, Repr

/-- A numstat column: the decimal count, or `-` for a binary file. -/
def numstatCol (o : Option Nat) : GoStr :=
  match o with
  | some n => natDecimal n
  | none => ['-']

/-- One `--numstat` line: additions, tab, deletions, tab, path. -/
def numstatLine (e : NumstatEntry) : GoStr :=
  numstatCol e.adds ++ ('\t' :: (numstatCol e.dels ++ ('\t' :: e.path)))

/-- Full `git diff --numstat` stdout for a list of changed files. -/
def numstatOutput (es : List NumstatEntry) : GoStr :=
  joinLines (es.map numstatLine)

/-- One `git diff --name-status` line's data: the status code letter and
the path. -/
structure NameStatusEntry where
  code : GoStr
  path : GoStr
deriving DecidableEq, Repr

/-- One `--name-status` line: code, tab, path. -/
def nameStatusLine (e : NameStatusEntry) : GoStr :=
  e.code ++ '\t' :: e.path

/-- Full `git diff --name-status` stdout for a list of changed files. -/
def nameStatusOutput (es : List NameStatusEntry) : GoStr :=
  joinLines (es.map nameStatusLine)

/-! ### Helper lemmas -/

instance {ε α : Type} [DecidableEq ε] [DecidableEq α] : DecidableEq (Except ε α) := fun a b =>
  match a, b with
  | .error e, .error f =>
    if h : e = f then isTrue (by rw [h]) else isFalse (by simp [h])
  | .ok x, .ok y =>
    if h : x = y then isTrue (by rw [h]) else isFalse (by simp [h])
  | .error _, .ok _ => isFalse (by simp)
  | .ok _, .error _ => isFalse (by simp)

/-- Overwriting an existing key leaves the set of filesystem entries
unchanged. -/
theorem treeSet_keys (wt : List (GoStr × GoStr)) (key content : GoStr) :
    (treeSet wt key content).map Prod.fst = wt.map Prod.fst := by
  induction wt with
  | nil => rfl
  | cons kv rest ih =>
    simp only [treeSet, List.map_cons] at *
    by_cases h : kv.1 = key <;> simp [h, ih]

/-! ### Splitting and trimming well-formed tool output -/

theorem goSplit_append (sep : Char) (a b : GoStr) (ha : sep ∉ a) :
    goSplit sep (a ++ sep :: b) = a :: goSplit sep b := by
  unfold goSplit List.splitOn
  refine List.splitOnP_first _ _ ?_ sep (by simp) b
  intro x hx
  simp only [beq_iff_eq]
  intro h
  exact ha (h ▸ hx)

theorem goSplit_single (sep : Char) (a : GoStr) (ha : sep ∉ a) :
    goSplit sep a = [a] := by
  unfold goSplit List.splitOn
  refine List.splitOnP_eq_single _ _ ?_
  intro x hx
  simp only [beq_iff_eq]
  intro h
  exact ha (h ▸ hx)

theorem goSplit_joinLines (ls : List GoStr) (hne : ls ≠ [])
    (h : ∀ l ∈ ls, '\n' ∉ l) :
    goSplit '\n' (joinLines ls) = ls := by
  induction ls with
  | nil => exact absurd rfl hne
  | cons l rest ih =>
    cases rest with
    | nil => exact goSplit_single '\n' l (h l (by simp))
    | cons l' r =>
      show goSplit '\n' (l ++ '\n' :: joinLines (l' :: r)) = _
      rw [goSplit_append '\n' l _ (h l (by simp))]
      rw [ih (by simp) (fun x hx => h x (by simp [hx]))]

theorem dropWhile_head_false (p : Char → Bool) (s : GoStr)
    (h : ∀ c, s.head? = some c → p c = false) : List.dropWhile p s = s := by
  cases s with
  | nil => rfl
  | cons c rest => simp [List.dropWhile_cons, h c rfl]

theorem goTrimSpace_eq_self (s : GoStr)
    (h1 : ∀ c, s.head? = some c → goIsSpace c = false)
    (h2 : ∀ c, s.getLast? = some c → goIsSpace c = false) :
    goTrimSpace s = s := by
  unfold goTrimSpace
  rw [dropWhile_head_false _ _ h1]
  rw [dropWhile_head_false _ _ (fun c hc => h2 c (by rwa [List.head?_reverse] at hc))]
  exact List.reverse_reverse s

theorem joinLines_ne_nil (l : GoStr) (rest : List GoStr) (hl : l ≠ []) :
    joinLines (l :: rest) ≠ [] := by
  cases rest with
  | nil => simpa [joinLines] using hl
  | cons l' r => simp [joinLines]

theorem head?_append_left (a b : GoStr) (ha : a ≠ []) : (a ++ b).head? = a.head? := by
  cases a with
  | nil => exact absurd rfl ha
  | cons c cs => rfl

theorem mem_of_getLast?_eq (l : GoStr) (c : Char) (h : l.getLast? = some c) : c ∈ l := by
  obtain ⟨hne, rfl⟩ := List.mem_getLast?_eq_getLast (l := l) (x := c) h
  exact List.getLast_mem hne

theorem joinLines_head_not_space (ls : List GoStr) (hok : ∀ l ∈ ls, LineOk l) :
    ∀ c, (joinLines ls).head? = some c → goIsSpace c = false := by
  cases ls with
  | nil => intro c hc; simp [joinLines] at hc
  | cons l rest =>
    have hl := hok l (by simp)
    intro c hc
    apply hl.2.2.1 c
    cases rest with
    | nil => simpa [joinLines] using hc
    | cons l' r =>
      rw [show joinLines (l :: l' :: r) = l ++ '\n' :: joinLines (l' :: r) from rfl,
        head?_append_left _ _ hl.1] at hc
      exact hc

theorem joinLines_last_not_space : ∀ ls : List GoStr, (∀ l ∈ ls, LineOk l) →
    ∀ c, (joinLines ls).getLast? = some c → goIsSpace c = false := by
  intro ls
  induction ls with
  | nil => intro _ c hc; simp [joinLines] at hc
  | cons l rest ih =>
    intro hok c hc
    cases rest with
    | nil => exact (hok l (by simp)).2.2.2 c (by simpa [joinLines] using hc)
    | cons l' r =>
      have hok' : ∀ x ∈ l' :: r, LineOk x := fun x hx => hok x (by simp [hx])
      rw [show joinLines (l :: l' :: r) = l ++ '\n' :: joinLines (l' :: r) from rfl,
        List.getLast?_append_cons] at hc
      have hne : joinLines (l' :: r) ≠ [] := joinLines_ne_nil l' r (hok' l' (by simp)).1
      have h2 := List.getLast?_append_of_ne_nil ['\n'] hne
      simp only [List.singleton_append] at h2
      rw [h2] at hc
      exact ih hok' c hc

/-- Splitting trimmed tool output into lines recovers the well-formed
lines it was printed from. -/
theorem lines_of_output (ls : List GoStr) (hne : ls ≠ []) (hok : ∀ l ∈ ls, LineOk l) :
    goSplit '\n' (goTrimSpace (joinLines ls)) = ls := by
  rw [goTrimSpace_eq_self _ (joinLines_head_not_space ls hok) (joinLines_last_not_space ls hok)]
  exact goSplit_joinLines ls hne (fun l hl => (hok l hl).2.1)

/-! ### Decimal printing and `Atoi` -/

theorem digitVal_digitChar : ∀ d < 10, digitVal (Nat.digitChar d) = some d := by decide

theorem digitChar_class : ∀ d < 10,
    goIsSpace (Nat.digitChar d) = false ∧ Nat.digitChar d ≠ '\x00'
      ∧ Nat.digitChar d ≠ '+' ∧ Nat.digitChar d ≠ '-' ∧ Nat.digitChar d ≠ '\n' := by
  decide

theorem foldl_digitStep (ds : List Nat) (hds : ∀ d ∈ ds, d < 10) :
    ∀ a, (ds.map Nat.digitChar).foldl digitStep (some a)
      = some (ds.foldl (fun acc d => 10 * acc + d) a) := by
  induction ds with
  | nil => intro a; rfl
  | cons d rest ih =>
    intro a
    simp only [List.map_cons, List.foldl_cons]
    rw [show digitStep (some a) (Nat.digitChar d) = some (10 * a + d) by
      simp [digitStep, digitVal_digitChar d (hds d (by simp))]]
    exact ih (fun x hx => hds x (by simp [hx])) _

theorem foldl_reverse_ofDigits (ds : List Nat) :
    (ds.reverse).foldl (fun acc d => 10 * acc + d) 0 = Nat.ofDigits 10 ds := by
  rw [List.foldl_reverse]
  induction ds with
  | nil => simp [Nat.ofDigits]
  | cons d rest ih =>
    simp only [List.foldr_cons, Nat.ofDigits_cons, ih]
    ring

theorem natDecimal_chars (n : Nat) :
    ∀ c ∈ natDecimal n, ∃ d, d < 10 ∧ c = Nat.digitChar d := by
  unfold natDecimal
  split
  · intro c hc
    simp only [List.mem_singleton] at hc
    exact ⟨0, by norm_num, by rw [hc]; rfl⟩
  · intro c hc
    simp only [List.mem_reverse, List.mem_map] at hc
    obtain ⟨d, hd, rfl⟩ := hc
    exact ⟨d, Nat.digits_lt_base (by norm_num) hd, rfl⟩

theorem natDecimal_ne_nil (n : Nat) : natDecimal n ≠ [] := by
  unfold natDecimal
  split
  · simp
  · have : Nat.digits 10 n ≠ [] := Nat.digits_ne_nil_iff_ne_zero.mpr (by assumption)
    simp [this]

theorem natDecimal_not_dash (n : Nat) : natDecimal n ≠ ['-'] := by
  intro h
  have hm : '-' ∈ natDecimal n := by rw [h]; simp
  obtain ⟨d, hd, hc⟩ := natDecimal_chars n '-' hm
  exact (digitChar_class d hd).2.2.2.1 hc.symm

theorem natDecimal_no_space (n : Nat) :
    ∀ c ∈ natDecimal n, goIsSpace c = false ∧ c ≠ '\n' := by
  intro c hc
  obtain ⟨d, hd, rfl⟩ := natDecimal_chars n c hc
  exact ⟨(digitChar_class d hd).1, (digitChar_class d hd).2.2.2.2⟩

theorem digitsVal_natDecimal (n : Nat) : digitsVal (natDecimal n) = some n := by
  rcases Nat.eq_zero_or_pos n with hn | hn
  · subst hn; decide
  · have hn' : n ≠ 0 := Nat.pos_iff_ne_zero.mp hn
    have hds : ∀ d ∈ (Nat.digits 10 n).reverse, d < 10 := fun d hd =>
      Nat.digits_lt_base (by norm_num) (List.mem_reverse.mp hd)
    have hform : natDecimal n = ((Nat.digits 10 n).reverse).map Nat.digitChar := by
      unfold natDecimal
      rw [if_neg hn', List.map_reverse]
    rw [hform]
    unfold digitsVal
    rw [if_neg (by
      have : Nat.digits 10 n ≠ [] := Nat.digits_ne_nil_iff_ne_zero.mpr hn'
      simp [this])]
    rw [foldl_digitStep _ hds 0, foldl_reverse_ofDigits, Nat.ofDigits_digits]

theorem goAtoi_natDecimal (n : Nat) : goAtoi (natDecimal n) = (n : Int) := by
  cases h : natDecimal n with
  | nil => exact absurd h (natDecimal_ne_nil n)
  | cons c rest =>
    obtain ⟨d, hd, rfl⟩ := natDecimal_chars n c (by rw [h]; simp)
    simp only [goAtoi]
    rw [if_neg (digitChar_class d hd).2.2.1, if_neg (digitChar_class d hd).2.2.2.1]
    rw [← h, digitsVal_natDecimal]
    rfl

/-- C3: for every save request whose path fails `validateRepoPath`, the
`saveFile` handler responds 403 and performs no filesystem open or
write: the working tree is unchanged on rejection. -/
theorem saveFile_invalid_path_no_write (st : SysState) (rawPath content : GoStr)
    (e : PathError)
    (hv : validateRepoPath st (goTrimStart rawPath (gs "/")) = Except.error e) :
    saveFile st rawPath (some content) = ⟨403, st.workTree⟩ := by
  simp only [saveFile, hv]

/-- Witness for C3 at a concrete rejected request (untracked path). -/
theorem saveFile_invalid_path_no_write_witness :
    saveFile ⟨gs "/w", gs "/repo", fun _ => false, [(gs "a.txt", gs "old")]⟩
      (gs "/a.txt") (some (gs "new"))
      = ⟨403, [(gs "a.txt", gs "old")]⟩ :=
  saveFile_invalid_path_no_write
    ⟨gs "/w", gs "/repo", fun _ => false, [(gs "a.txt", gs "old")]⟩
    (gs "/a.txt") (gs "new") PathError.notTracked (by decide)

/-- C4: for every amend request whose target commit id differs from the
resolved HEAD hash, `amendCommitMessage` answers 403, leaves HEAD
unchanged, and never invokes the amend subprocess. -/
theorem amend_non_head_rejected (r : AmendRepo) (commitID msg h : GoStr)
    (hh : r.head = some h) (hm : goTrimSpace msg ≠ []) (hne : commitID ≠ h) :
    amendCommitMessage r commitID (some msg) = ⟨403, r.head, false, false⟩ := by
  simp only [amendCommitMessage, hh, if_neg hm, if_pos hne]

/-- Witness for C4 at a concrete non-HEAD target. -/
theorem amend_non_head_rejected_witness :
    amendCommitMessage ⟨some (gs "aaa111"), fun _ => false, fun _ => some (gs "bbb")⟩
      (gs "ccc222") (some (gs "better message"))
      = ⟨403, some (gs "aaa111"), false, false⟩ :=
  amend_non_head_rejected ⟨some (gs "aaa111"), fun _ => false, fun _ => some (gs "bbb")⟩
    (gs "ccc222") (gs "better message") (gs "aaa111") rfl (by decide) (by decide)

/-- C9: `getFileDiff` never fails on missing content: a missing old blob
(the `git show` subprocess failing) yields `oldContent = ""`, and a
missing working-tree file yields `newContent = ""`. -/
theorem getFileDiff_missing_empty (fr : FsRepo) (diffID rawPath : GoStr) :
    (fr.showBlob
        (if diffID = gs "working" then gs "HEAD:" ++ goTrimStart rawPath (gs "/")
         else diffID ++ (gs "^:" ++ goTrimStart rawPath (gs "/"))) = none →
      (getFileDiff fr diffID rawPath).oldContent = [])
    ∧ (rootOpen fr.workTree (goTrimStart rawPath (gs "/")) = none →
      (getFileDiff fr diffID rawPath).newContent = []) := by
  constructor <;> intro h <;> simp [getFileDiff, h]

/-- Witness for C9: a repository where the blob and the working-tree file
are both missing resolves both sides to the empty string. -/
theorem getFileDiff_missing_empty_witness :
    (getFileDiff ⟨fun _ => none, []⟩ (gs "abc123") (gs "/new.txt")).oldContent = []
    ∧ (getFileDiff ⟨fun _ => none, []⟩ (gs "abc123") (gs "/new.txt")).newContent = [] :=
  ⟨(getFileDiff_missing_empty ⟨fun _ => none, []⟩ (gs "abc123") (gs "/new.txt")).1 rfl,
   (getFileDiff_missing_empty ⟨fun _ => none, []⟩ (gs "abc123") (gs "/new.txt")).2 (by decide)⟩

/-- C10: `saveFile` never creates a filesystem entry — the rooted handle
is opened write-and-truncate without a create flag.  The set of existing
entries is invariant for every request; a validated path whose file is
missing on disk fails with a 500 and an unchanged tree; a 200 answer
implies the file already existed. -/
theorem saveFile_never_creates (st : SysState) (rawPath : GoStr)
    (body : Option GoStr) (content : GoStr) :
    ((saveFile st rawPath body).workTree.map Prod.fst = st.workTree.map Prod.fst)
    ∧ (validateRepoPath st (goTrimStart rawPath (gs "/")) = Except.ok () →
        rootOpen st.workTree (goTrimStart rawPath (gs "/")) = none →
        saveFile st rawPath (some content) = ⟨500, st.workTree⟩)
    ∧ ((saveFile st rawPath (some content)).status = 200 →
        rootOpen st.workTree (goTrimStart rawPath (gs "/")) ≠ none) := by
  refine ⟨?_, ?_, ?_⟩
  · cases body with
    | none => rfl
    | some c =>
      simp only [saveFile]
      cases hv : validateRepoPath st (goTrimStart rawPath (gs "/")) with
      | error e => rfl
      | ok u =>
        cases ho : rootOpen st.workTree (goTrimStart rawPath (gs "/")) with
        | none => rfl
        | some old => exact treeSet_keys _ _ _
  · intro hv ho
    simp only [saveFile, hv, ho]
  · intro h200 ho
    simp only [saveFile] at h200
    cases hv : validateRepoPath st (goTrimStart rawPath (gs "/")) with
    | error e => rw [hv] at h200; simp at h200
    | ok u => rw [hv, ho] at h200; simp at h200

/-- Witness for C10: a tracked, validated path whose file was deleted
from the working tree is refused with a 500 and nothing is created. -/
theorem saveFile_never_creates_witness :
    ((saveFile ⟨gs "/repo", gs "/repo", fun _ => true, []⟩ (gs "/a.txt")
        (some (gs "data"))).workTree.map Prod.fst = ([] : List (GoStr × GoStr)).map Prod.fst)
    ∧ saveFile ⟨gs "/repo", gs "/repo", fun _ => true, []⟩ (gs "/a.txt")
        (some (gs "data")) = ⟨500, []⟩ :=
  ⟨(saveFile_never_creates ⟨gs "/repo", gs "/repo", fun _ => true, []⟩ (gs "/a.txt")
      (some (gs "data")) (gs "data")).1,
   (saveFile_never_creates ⟨gs "/repo", gs "/repo", fun _ => true, []⟩ (gs "/a.txt")
      (some (gs "data")) (gs "data")).2.1 (by decide) (by decide)⟩

/-! ### Per-line facts for `--numstat` output -/

theorem mem_of_head?_eq (l : GoStr) (c : Char) (h : l.head? = some c) : c ∈ l := by
  cases l with
  | nil => simp at h
  | cons x xs => simp only [List.head?_cons, Option.some.injEq] at h; simp [h]

theorem numstatCol_ne_nil (o : Option Nat) : numstatCol o ≠ [] := by
  cases o with
  | none => simp [numstatCol]
  | some n => exact natDecimal_ne_nil n

theorem numstatCol_no_space (o : Option Nat) :
    ∀ c ∈ numstatCol o, goIsSpace c = false ∧ c ≠ '\n' := by
  cases o with
  | none =>
    intro c hc
    simp only [numstatCol, List.mem_singleton] at hc
    subst hc
    exact ⟨by decide, by decide⟩
  | some n => exact natDecimal_no_space n

theorem gs_dash : gs "-" = ['-'] := rfl

instance (s : GoStr) : Decidable (tokenOk s) := by
  unfold tokenOk; infer_instance

instance (s : GoStr) : Decidable (fieldOk s) := by
  unfold fieldOk; infer_instance

theorem goFields_cols (a rest : GoStr)
    (ha : ∀ c ∈ a, goIsSpace c = false) (hane : a ≠ []) :
    goFields (a ++ '\t' :: rest) = a :: goFields rest := by
  unfold goFields
  rw [List.splitOnP_first _ _ (fun x hx => by simp [ha x hx]) '\t' (by decide) rest]
  rw [List.filter_cons]
  simp [hane]

theorem goFields_numstatLine (e : NumstatEntry) :
    goFields (numstatLine e) = numstatCol e.adds :: numstatCol e.dels :: goFields e.path := by
  unfold numstatLine
  rw [goFields_cols _ _ (fun c hc => (numstatCol_no_space e.adds c hc).1) (numstatCol_ne_nil _)]
  rw [goFields_cols _ _ (fun c hc => (numstatCol_no_space e.dels c hc).1) (numstatCol_ne_nil _)]

theorem statLineAcc_numstat (acc : Int × Int × Int) (e : NumstatEntry) :
    statLineAcc acc (numstatLine e)
      = (acc.1 + ((e.adds.getD 0 : Nat) : Int),
         acc.2.1 + ((e.dels.getD 0 : Nat) : Int),
         acc.2.2 + 1) := by
  unfold statLineAcc
  rw [if_neg (by simp [numstatLine, numstatCol_ne_nil])]
  rw [goFields_numstatLine e]
  rw [if_pos (by simp)]
  simp only [List.getD_cons_zero, List.getD_cons_succ, gs_dash]
  rcases e with ⟨adds, dels, path⟩
  cases adds <;> cases dels <;>
    simp [numstatCol, natDecimal_not_dash, goAtoi_natDecimal]

theorem numstatLine_ok (e : NumstatEntry) (hp : tokenOk e.path) : LineOk (numstatLine e) := by
  obtain ⟨hpne, hpchars⟩ := hp
  refine ⟨by simp [numstatLine, numstatCol_ne_nil], ?_, ?_, ?_⟩
  · intro hmem
    have hmem' : '\n' ∈ numstatCol e.adds ++ ('\t' :: (numstatCol e.dels ++ ('\t' :: e.path))) :=
      hmem
    rcases List.mem_append.mp hmem' with h | h
    · exact absurd rfl (numstatCol_no_space e.adds '\n' h).2
    · rcases List.mem_cons.mp h with h | h
      · exact absurd h (by decide)
      · rcases List.mem_append.mp h with h | h
        · exact absurd rfl (numstatCol_no_space e.dels '\n' h).2
        · rcases List.mem_cons.mp h with h | h
          · exact absurd h (by decide)
          · have hsp := (hpchars '\n' h).1
            simp [goIsSpace] at hsp
  · intro c hc
    rw [show numstatLine e
        = numstatCol e.adds ++ ('\t' :: (numstatCol e.dels ++ ('\t' :: e.path))) from rfl,
      head?_append_left _ _ (numstatCol_ne_nil _)] at hc
    exact (numstatCol_no_space e.adds c (mem_of_head?_eq _ c hc)).1
  · intro c hc
    rw [show numstatLine e
        = numstatCol e.adds ++ ('\t' :: (numstatCol e.dels ++ ('\t' :: e.path))) from rfl,
      List.getLast?_append_cons, ← List.singleton_append,
      List.getLast?_append_of_ne_nil _ (by simp [hpne]),
      List.getLast?_append_cons, ← List.singleton_append,
      List.getLast?_append_of_ne_nil _ hpne] at hc
    exact (hpchars c (mem_of_getLast?_eq _ c hc)).1

theorem foldl_statLineAcc (es : List NumstatEntry) :
    ∀ acc : Int × Int × Int,
      (es.map numstatLine).foldl statLineAcc acc
        = (acc.1 + (es.map (fun e => ((e.adds.getD 0 : Nat) : Int))).sum,
           acc.2.1 + (es.map (fun e => ((e.dels.getD 0 : Nat) : Int))).sum,
           acc.2.2 + (es.length : Int)) := by
  induction es with
  | nil => intro acc; simp
  | cons e rest ih =>
    intro acc
    simp only [List.map_cons, List.foldl_cons]
    rw [statLineAcc_numstat acc e, ih]
    simp only [List.sum_cons, List.length_cons, Prod.mk.injEq]
    refine ⟨by ring, by ring, by push_cast; ring⟩

/-- C6: `parseDiffStat` is additive over numstat lines: the aggregate
additions and deletions are the sums of the per-file numeric columns,
`filesCount` is the number of stat lines, and a `-` column (binary file)
counts as a file while contributing zero to the line totals. -/
theorem parseDiffStat_additive (es : List NumstatEntry)
    (hp : ∀ e ∈ es, tokenOk e.path) :
    parseDiffStat (numstatOutput es)
      = ((es.map (fun e => ((e.adds.getD 0 : Nat) : Int))).sum,
         (es.map (fun e => ((e.dels.getD 0 : Nat) : Int))).sum,
         (es.length : Int)) := by
  cases es with
  | nil => decide
  | cons e0 rest =>
    unfold parseDiffStat numstatOutput
    rw [lines_of_output _ (by simp) (by
      intro l hl
      simp only [List.mem_map] at hl
      obtain ⟨e, he, rfl⟩ := hl
      exact numstatLine_ok e (hp e he))]
    rw [foldl_statLineAcc]
    simp

/-- Witness for C6: the spec's own example (+3/−1 and +2/−0) plus one
binary file aggregates to additions 5, deletions 1, filesCount 3. -/
theorem parseDiffStat_additive_witness :
    parseDiffStat (numstatOutput
      [⟨some 3, some 1, gs "a.txt"⟩, ⟨some 2, some 0, gs "b.txt"⟩,
       ⟨none, none, gs "img.png"⟩])
      = (5, 1, 3) := by
  rw [parseDiffStat_additive _ (by decide)]
  decide

/-! ### Per-line facts for `git log` output -/

instance (cd : CommitData) : Decidable (commitOk cd) := by
  unfold commitOk; infer_instance

theorem logLine_ok (cd : CommitData) (hok : commitOk cd) : LineOk (logLine cd) := by
  obtain ⟨⟨hhne, hh⟩, hs, ha, ⟨htne, ht⟩⟩ := hok
  refine ⟨by simp [logLine, hhne], ?_, ?_, ?_⟩
  · intro hmem
    have hmem' : '\n' ∈ cd.hash ++ ('\x00' ::
        (cd.subject ++ ('\x00' :: (cd.author ++ ('\x00' :: cd.timestampStr))))) := hmem
    rcases List.mem_append.mp hmem' with h | h
    · have := (hh '\n' h).1; simp [goIsSpace] at this
    · rcases List.mem_cons.mp h with h | h
      · exact absurd h (by decide)
      · rcases List.mem_append.mp h with h | h
        · exact absurd h hs.1
        · rcases List.mem_cons.mp h with h | h
          · exact absurd h (by decide)
          · rcases List.mem_append.mp h with h | h
            · exact absurd h ha.1
            · rcases List.mem_cons.mp h with h | h
              · exact absurd h (by decide)
              · have := (ht '\n' h).1; simp [goIsSpace] at this
  · intro c hc
    rw [show logLine cd = cd.hash ++ ('\x00' ::
        (cd.subject ++ ('\x00' :: (cd.author ++ ('\x00' :: cd.timestampStr))))) from rfl,
      head?_append_left _ _ hhne] at hc
    exact (hh c (mem_of_head?_eq _ c hc)).1
  · intro c hc
    rw [show logLine cd = cd.hash ++ ('\x00' ::
        (cd.subject ++ ('\x00' :: (cd.author ++ ('\x00' :: cd.timestampStr))))) from rfl,
      List.getLast?_append_cons, ← List.singleton_append,
      List.getLast?_append_of_ne_nil _ (by simp),
      List.getLast?_append_cons, ← List.singleton_append,
      List.getLast?_append_of_ne_nil _ (by simp),
      List.getLast?_append_cons, ← List.singleton_append,
      List.getLast?_append_of_ne_nil _ htne] at hc
    exact (ht c (mem_of_getLast?_eq _ c hc)).1

theorem goSplit_logLine (cd : CommitData) (hok : commitOk cd) :
    goSplit '\x00' (logLine cd) = [cd.hash, cd.subject, cd.author, cd.timestampStr] := by
  obtain ⟨⟨hhne, hh⟩, hs, ha, ⟨htne, ht⟩⟩ := hok
  unfold logLine
  rw [goSplit_append '\x00' _ _ (fun hmem => (hh _ hmem).2 rfl)]
  rw [goSplit_append '\x00' _ _ hs.2]
  rw [goSplit_append '\x00' _ _ ha.2]
  rw [goSplit_single '\x00' _ (fun hmem => (ht _ hmem).2 rfl)]

theorem parseLogEntry_logLine (stat : GoStr → GoStr) (cd : CommitData) (hok : commitOk cd) :
    parseLogEntry stat (logLine cd)
      = some ⟨cd.hash, cd.subject, cd.author, GoTime.unix (goAtoi cd.timestampStr),
          (parseDiffStat (stat cd.hash)).2.2, (parseDiffStat (stat cd.hash)).1,
          (parseDiffStat (stat cd.hash)).2.1⟩ := by
  unfold parseLogEntry
  rw [if_neg (by simp [logLine, hok.1.1])]
  rw [goSplit_logLine cd hok]
  rw [if_neg (by simp)]
  simp only [List.getD_cons_zero, List.getD_cons_succ]

theorem parseCommitLine_logLine (headHash : GoStr) (cd : CommitData) (hok : commitOk cd) :
    parseCommitLine headHash (logLine cd)
      = some ⟨cd.hash, cd.subject, cd.author, GoTime.unix (goAtoi cd.timestampStr),
          decide (cd.hash = headHash)⟩ := by
  unfold parseCommitLine
  rw [if_neg (by simp [logLine, hok.1.1])]
  rw [goSplit_logLine cd hok]
  rw [if_neg (by simp)]
  simp only [List.getD_cons_zero, List.getD_cons_succ]

theorem filterMap_parseLog (stat : GoStr → GoStr) (cs : List CommitData)
    (hok : ∀ cd ∈ cs, commitOk cd) :
    (cs.map logLine).filterMap (parseLogEntry stat)
      = cs.map (fun cd =>
          ⟨cd.hash, cd.subject, cd.author, GoTime.unix (goAtoi cd.timestampStr),
           (parseDiffStat (stat cd.hash)).2.2, (parseDiffStat (stat cd.hash)).1,
           (parseDiffStat (stat cd.hash)).2.1⟩) := by
  induction cs with
  | nil => rfl
  | cons cd rest ih =>
    simp only [List.map_cons, List.filterMap_cons]
    rw [parseLogEntry_logLine stat cd (hok cd (by simp))]
    rw [ih (fun x hx => hok x (by simp [hx]))]

theorem filterMap_parseCommit (headHash : GoStr) (cs : List CommitData)
    (hok : ∀ cd ∈ cs, commitOk cd) :
    (cs.map logLine).filterMap (parseCommitLine headHash)
      = cs.map (fun cd =>
          ⟨cd.hash, cd.subject, cd.author, GoTime.unix (goAtoi cd.timestampStr),
           decide (cd.hash = headHash)⟩) := by
  induction cs with
  | nil => rfl
  | cons cd rest ih =>
    simp only [List.map_cons, List.filterMap_cons]
    rw [parseCommitLine_logLine headHash cd (hok cd (by simp))]
    rw [ih (fun x hx => hok x (by simp [hx]))]

theorem getDiffs_some (r : Repo) (out : GoStr) (h : gitLog r 20 = some out) :
    getDiffs r = Except.ok (workingDiffEntry r ::
      (goSplit '\n' (goTrimSpace out)).filterMap (parseLogEntry r.commitNumstat)) := by
  unfold getDiffs
  rw [h]

theorem take_map_ne_nil (cs : List CommitData) (hne : cs ≠ []) :
    (cs.take 20).map logLine ≠ [] := by
  cases cs with
  | nil => exact absurd rfl hne
  | cons c rest => simp [List.take_succ_cons]

/-- C5: `getDiffs` always returns at least one entry; the first entry is
the synthetic working-changes entry — id `working`, stats parsed from the
`git diff HEAD --numstat` output (HEAD against the working tree), emitted
even when empty — followed by the 20 most recent commits, most recent
first, each with its own aggregate stat. -/
theorem getDiffs_working_first (r : Repo) (hne : r.commits ≠ [])
    (hok : ∀ cd ∈ r.commits, commitOk cd) :
    getDiffs r = Except.ok
      (⟨gs "working", gs "Working Changes", [], GoTime.now,
        (parseDiffStat r.workingNumstat).2.2, (parseDiffStat r.workingNumstat).1,
        (parseDiffStat r.workingNumstat).2.1⟩ ::
       (r.commits.take 20).map (fun cd =>
          ⟨cd.hash, cd.subject, cd.author, GoTime.unix (goAtoi cd.timestampStr),
           (parseDiffStat (r.commitNumstat cd.hash)).2.2,
           (parseDiffStat (r.commitNumstat cd.hash)).1,
           (parseDiffStat (r.commitNumstat cd.hash)).2.1⟩)) := by
  rw [getDiffs_some r (joinLines ((r.commits.take 20).map logLine))
    (by unfold gitLog gitLogOutput; rw [if_neg hne])]
  rw [lines_of_output _ (take_map_ne_nil r.commits hne) (by
    intro l hl
    simp only [List.mem_map] at hl
    obtain ⟨cd, hcd, rfl⟩ := hl
    exact logLine_ok cd (hok cd (List.mem_of_mem_take hcd)))]
  rw [filterMap_parseLog _ _ (fun cd hcd => hok cd (List.mem_of_mem_take hcd))]
  rfl

/-- Witness for C5: a one-commit repository with a clean working tree
still lists the (empty) working entry first, then the commit. -/
theorem getDiffs_working_first_witness :
    getDiffs ⟨[⟨gs "aaa111", gs "first commit", gs "alice", gs "100"⟩], [], fun _ => []⟩
      = Except.ok
        [⟨gs "working", gs "Working Changes", [], GoTime.now, 0, 0, 0⟩,
         ⟨gs "aaa111", gs "first commit", gs "alice", GoTime.unix 100, 0, 0, 0⟩] := by
  rw [getDiffs_working_first _ (by decide) (by decide)]
  decide

/-! ### `getDiffCommits`: range evaluation -/

theorem takeWhile_middle (p : CommitData → Bool) (pre : List CommitData) (c : CommitData)
    (post : List CommitData) (hpre : ∀ x ∈ pre, p x = true) (hc : p c = false) :
    (pre ++ c :: post).takeWhile p = pre := by
  induction pre with
  | nil => simp [List.takeWhile_cons, hc]
  | cons x xs ih =>
    simp [List.takeWhile_cons, hpre x (by simp),
      ih (fun y hy => hpre y (by simp [hy]))]

theorem dropWhile_middle (p : CommitData → Bool) (pre : List CommitData) (c : CommitData)
    (post : List CommitData) (hpre : ∀ x ∈ pre, p x = true) (hc : p c = false) :
    (pre ++ c :: post).dropWhile p = c :: post := by
  induction pre with
  | nil => simp [List.dropWhile_cons, hc]
  | cons x xs ih =>
    simp [List.dropWhile_cons, hpre x (by simp),
      ih (fun y hy => hpre y (by simp [hy]))]

theorem gitLogRange_eval (r : Repo) (diffID : GoStr) (pre : List CommitData)
    (c : CommitData) (post : List CommitData)
    (hcs : r.commits = pre ++ c :: post)
    (hpre : ∀ x ∈ pre, x.hash ≠ diffID) (hc : c.hash = diffID) (hpost : post ≠ []) :
    gitLogRange r diffID = some (gitLogOutput (pre ++ [c])) := by
  unfold gitLogRange
  rw [hcs, List.span_eq_take_drop,
    takeWhile_middle _ pre c post (fun x hx => by simp [hpre x hx]) (by simp [hc]),
    dropWhile_middle _ pre c post (fun x hx => by simp [hpre x hx]) (by simp [hc])]
  show (if post = [] then none else some (gitLogOutput (pre ++ [c])))
      = some (gitLogOutput (pre ++ [c]))
  rw [if_neg hpost]

theorem getDiffCommits_eval (r : Repo) (diffID headHash out : GoStr)
    (hh : revParseHead r = some headHash)
    (hrange : (if diffID = gs "working" then gitLog r 20 else gitLogRange r diffID)
      = some out) :
    getDiffCommits r diffID = Except.ok
      ((goSplit '\n' (goTrimSpace out)).filterMap (parseCommitLine headHash)) := by
  unfold getDiffCommits
  rw [hh, hrange]

/-- C8 counterexample: on a three-commit history `aaa111 ← bbb222 ←
ccc333` (most recent first) with base id `bbb222`, the record for
`bbb222` itself appears in the output — `git log bbb222^..HEAD` excludes
the *parent* of the base commit, not the base commit, so the returned
range is not strictly-after-the-base-id as the claim states. -/
theorem getDiffCommits_includes_base :
    ∃ recs, getDiffCommits
        ⟨[⟨gs "aaa111", gs "third", gs "al", gs "3"⟩,
          ⟨gs "bbb222", gs "second", gs "al", gs "2"⟩,
          ⟨gs "ccc333", gs "first", gs "al", gs "1"⟩], [], fun _ => []⟩
        (gs "bbb222")
      = Except.ok recs ∧ gs "bbb222" ∈ recs.map CommitInfo.id :=
  ⟨[⟨gs "aaa111", gs "third", gs "al", GoTime.unix 3, true⟩,
    ⟨gs "bbb222", gs "second", gs "al", GoTime.unix 2, false⟩],
   by decide, by decide⟩

/-- C8 (amended): for a base commit id with a parent, `getDiffCommits`
returns the records strictly from the base commit's *parent* (exclusive)
through HEAD (inclusive) — i.e. the base commit itself is the last record
— and exactly one record has `isHead = true`, namely the first element. -/
theorem getDiffCommits_from_parent (r : Repo) (diffID : GoStr) (hd c : CommitData)
    (pre post : List CommitData)
    (hcs : r.commits = pre ++ c :: post)
    (hhd : r.commits.head? = some hd)
    (hpre : ∀ x ∈ pre, x.hash ≠ diffID)
    (hc : c.hash = diffID)
    (hpost : post ≠ [])
    (hok : ∀ cd ∈ r.commits, commitOk cd)
    (hnodup : (r.commits.map CommitData.hash).Nodup)
    (hw : diffID ≠ gs "working") :
    getDiffCommits r diffID = Except.ok ((pre ++ [c]).map (fun cd =>
        ⟨cd.hash, cd.subject, cd.author, GoTime.unix (goAtoi cd.timestampStr),
         decide (cd.hash = hd.hash)⟩))
    ∧ ((pre ++ [c]).map (fun cd =>
        (⟨cd.hash, cd.subject, cd.author, GoTime.unix (goAtoi cd.timestampStr),
          decide (cd.hash = hd.hash)⟩ : CommitInfo))).countP (fun ci => ci.isHead) = 1
    ∧ (∃ first rest, (pre ++ [c]).map (fun cd =>
        (⟨cd.hash, cd.subject, cd.author, GoTime.unix (goAtoi cd.timestampStr),
          decide (cd.hash = hd.hash)⟩ : CommitInfo)) = first :: rest
        ∧ first.isHead = true) := by
  have hmem : ∀ y ∈ pre ++ [c], y ∈ r.commits := by
    intro y hy
    rw [hcs]
    rcases List.mem_append.mp hy with h | h
    · exact List.mem_append.mpr (Or.inl h)
    · simp only [List.mem_singleton] at h
      subst h
      simp
  have hokpc : ∀ y ∈ pre ++ [c], commitOk y := fun y hy => hok y (hmem y hy)
  have hrevp : revParseHead r = some hd.hash := by
    unfold revParseHead
    rw [hhd]
    rfl
  have hsplit : ∃ rest2, pre ++ [c] = hd :: rest2 ∧ ∀ y ∈ rest2, y.hash ≠ hd.hash := by
    cases pre with
    | nil =>
      have hch : c = hd := by
        rw [hcs] at hhd
        simpa using hhd
      exact ⟨[], by simp [hch], by simp⟩
    | cons x xs =>
      have hx : x = hd := by
        rw [hcs] at hhd
        simpa using hhd
      subst hx
      refine ⟨xs ++ [c], by simp, ?_⟩
      intro y hy heq
      rw [hcs] at hnodup
      simp only [List.cons_append, List.map_cons, List.nodup_cons] at hnodup
      apply hnodup.1
      refine List.mem_map.mpr ⟨y, ?_, heq⟩
      rcases List.mem_append.mp hy with h | h
      · exact List.mem_append.mpr (Or.inl h)
      · simp only [List.mem_singleton] at h
        subst h
        simp
  obtain ⟨rest2, hr2, hdist⟩ := hsplit
  refine ⟨?_, ?_, ?_⟩
  · rw [getDiffCommits_eval r diffID hd.hash (gitLogOutput (pre ++ [c])) hrevp
      (by rw [if_neg hw]; exact gitLogRange_eval r diffID pre c post hcs hpre hc hpost)]
    unfold gitLogOutput
    rw [lines_of_output _ (by rw [hr2]; simp) (by
      intro l hl
      simp only [List.mem_map] at hl
      obtain ⟨cd, hcd, rfl⟩ := hl
      exact logLine_ok cd (hokpc cd hcd))]
    rw [filterMap_parseCommit hd.hash _ hokpc]
  · rw [hr2, List.map_cons, List.countP_cons]
    have h0 : ((rest2.map (fun cd : CommitData =>
        (⟨cd.hash, cd.subject, cd.author, GoTime.unix (goAtoi cd.timestampStr),
          decide (cd.hash = hd.hash)⟩ : CommitInfo)))).countP (fun ci => ci.isHead)
        = 0 := by
      refine List.countP_eq_zero.mpr ?_
      intro ci hci
      simp only [List.mem_map] at hci
      obtain ⟨y, hy, rfl⟩ := hci
      simp [hdist y hy]
    simp [h0]
  · rw [hr2, List.map_cons]
    exact ⟨_, _, rfl, by simp⟩

/-- Witness for the amended C8 at the three-commit history: the returned
records are HEAD then the base commit, one `isHead`, first. -/
theorem getDiffCommits_from_parent_witness :
    getDiffCommits
        ⟨[⟨gs "aaa111", gs "third", gs "al", gs "3"⟩,
          ⟨gs "bbb222", gs "second", gs "al", gs "2"⟩,
          ⟨gs "ccc333", gs "first", gs "al", gs "1"⟩], [], fun _ => []⟩
        (gs "bbb222")
      = Except.ok (([(⟨gs "aaa111", gs "third", gs "al", gs "3"⟩ : CommitData)]
            ++ [(⟨gs "bbb222", gs "second", gs "al", gs "2"⟩ : CommitData)]).map
          (fun cd : CommitData =>
          ⟨cd.hash, cd.subject, cd.author, GoTime.unix (goAtoi cd.timestampStr),
           decide (cd.hash = gs "aaa111")⟩))
    ∧ (([(⟨gs "aaa111", gs "third", gs "al", gs "3"⟩ : CommitData)]
            ++ [(⟨gs "bbb222", gs "second", gs "al", gs "2"⟩ : CommitData)]).map
          (fun cd : CommitData =>
          (⟨cd.hash, cd.subject, cd.author, GoTime.unix (goAtoi cd.timestampStr),
            decide (cd.hash = gs "aaa111")⟩ : CommitInfo))).countP
        (fun ci => ci.isHead) = 1
    ∧ (∃ first rest, ([(⟨gs "aaa111", gs "third", gs "al", gs "3"⟩ : CommitData)]
            ++ [(⟨gs "bbb222", gs "second", gs "al", gs "2"⟩ : CommitData)]).map
          (fun cd : CommitData =>
          (⟨cd.hash, cd.subject, cd.author, GoTime.unix (goAtoi cd.timestampStr),
            decide (cd.hash = gs "aaa111")⟩ : CommitInfo)) = first :: rest
        ∧ first.isHead = true) :=
  getDiffCommits_from_parent
    ⟨[⟨gs "aaa111", gs "third", gs "al", gs "3"⟩,
      ⟨gs "bbb222", gs "second", gs "al", gs "2"⟩,
      ⟨gs "ccc333", gs "first", gs "al", gs "1"⟩], [], fun _ => []⟩
    (gs "bbb222")
    ⟨gs "aaa111", gs "third", gs "al", gs "3"⟩
    ⟨gs "bbb222", gs "second", gs "al", gs "2"⟩
    [⟨gs "aaa111", gs "third", gs "al", gs "3"⟩]
    [⟨gs "ccc333", gs "first", gs "al", gs "1"⟩]
    rfl rfl (by decide) (by decide) (by decide) (by decide) (by decide) (by decide)

/-! ### The bytewise string order used by the path sort -/

theorem goStrLt_irrefl : ∀ a : GoStr, goStrLt a a = false
  | [] => rfl
  | c :: rest => by simp [goStrLt, lt_irrefl, goStrLt_irrefl rest]

theorem goStrLt_trans : ∀ a b c : GoStr,
    goStrLt a b = true → goStrLt b c = true → goStrLt a c = true
  | [], [], _, h1, _ => by simp [goStrLt] at h1
  | [], _ :: _, [], _, h2 => by simp [goStrLt] at h2
  | [], _ :: _, _ :: _, _, _ => by simp [goStrLt]
  | _ :: _, [], _, h1, _ => by simp [goStrLt] at h1
  | _ :: _, _ :: _, [], _, h2 => by simp [goStrLt] at h2
  | x :: xs, y :: ys, z :: zs, h1, h2 => by
    simp only [goStrLt] at h1 h2 ⊢
    rcases lt_trichotomy x y with hxy | hxy | hxy
    · rcases lt_trichotomy y z with hyz | hyz | hyz
      · rw [if_pos (lt_trans hxy hyz)]
      · subst hyz; rw [if_pos hxy]
      · rw [if_neg (asymm hyz), if_pos hyz] at h2
        exact absurd h2 (by simp)
    · subst hxy
      rw [if_neg (lt_irrefl x), if_neg (lt_irrefl x)] at h1
      rcases lt_trichotomy x z with hxz | hxz | hxz
      · rw [if_pos hxz]
      · subst hxz
        rw [if_neg (lt_irrefl x), if_neg (lt_irrefl x)] at h2 ⊢
        exact goStrLt_trans xs ys zs h1 h2
      · rw [if_neg (asymm hxz), if_pos hxz] at h2
        exact absurd h2 (by simp)
    · rw [if_neg (asymm hxy), if_pos hxy] at h1
      exact absurd h1 (by simp)

theorem goStrLt_total3 : ∀ a b : GoStr, goStrLt a b = true ∨ a = b ∨ goStrLt b a = true
  | [], [] => Or.inr (Or.inl rfl)
  | [], _ :: _ => Or.inl (by simp [goStrLt])
  | _ :: _, [] => Or.inr (Or.inr (by simp [goStrLt]))
  | x :: xs, y :: ys => by
    rcases lt_trichotomy x y with h | h | h
    · exact Or.inl (by simp [goStrLt, h])
    · subst h
      rcases goStrLt_total3 xs ys with h' | h' | h'
      · exact Or.inl (by simp [goStrLt, lt_irrefl, h'])
      · exact Or.inr (Or.inl (by rw [h']))
      · exact Or.inr (Or.inr (by simp [goStrLt, lt_irrefl, h']))
    · exact Or.inr (Or.inr (by simp [goStrLt, h]))

theorem goStrLt_asymm (a b : GoStr) (h : goStrLt a b = true) : goStrLt b a = false := by
  by_contra hc
  have hba : goStrLt b a = true := by revert hc; cases goStrLt b a <;> simp
  have hx := goStrLt_trans a b a h hba
  rw [goStrLt_irrefl] at hx
  exact absurd hx (by simp)

theorem goStrLe_total (a b : GoStr) : goStrLe a b = true ∨ goStrLe b a = true := by
  unfold goStrLe
  rcases goStrLt_total3 a b with h | h | h
  · left; rw [goStrLt_asymm a b h]; rfl
  · subst h; left; rw [goStrLt_irrefl]; rfl
  · right; rw [goStrLt_asymm b a h]; rfl

theorem goStrLe_trans (a b c : GoStr) (h1 : goStrLe a b = true) (h2 : goStrLe b c = true) :
    goStrLe a c = true := by
  unfold goStrLe at h1 h2 ⊢
  simp only [Bool.not_eq_true'] at h1 h2 ⊢
  by_contra hc
  have hca : goStrLt c a = true := by revert hc; cases goStrLt c a <;> simp
  rcases goStrLt_total3 a b with h | h | h
  · have hx := goStrLt_trans c a b hca h
    rw [h2] at hx
    exact absurd hx (by simp)
  · subst h
    rw [h2] at hca
    exact absurd hca (by simp)
  · rw [h1] at h
    exact absurd h (by simp)

instance : IsTotal FileInfo (fun a b => goStrLe a.path b.path = true) :=
  ⟨fun a b => goStrLe_total a.path b.path⟩

instance : IsTrans FileInfo (fun a b => goStrLe a.path b.path = true) :=
  ⟨fun a b c => goStrLe_trans a.path b.path c.path⟩

/-! ### Per-line facts for `--name-status` output -/

theorem goFields_single (s : GoStr) (hs : ∀ c ∈ s, goIsSpace c = false) (hne : s ≠ []) :
    goFields s = [s] := by
  unfold goFields
  rw [List.splitOnP_eq_single _ _ (fun x hx => by simp [hs x hx])]
  simp [hne]

theorem goFields_nameStatusLine (e : NameStatusEntry)
    (hc : tokenOk e.code) (hp : tokenOk e.path) :
    goFields (nameStatusLine e) = [e.code, e.path] := by
  unfold nameStatusLine
  rw [goFields_cols _ _ (fun c hcm => (hc.2 c hcm).1) hc.1]
  rw [goFields_single e.path (fun c hcm => (hp.2 c hcm).1) hp.1]

theorem nameStatusLine_ok (e : NameStatusEntry)
    (hc : tokenOk e.code) (hp : tokenOk e.path) : LineOk (nameStatusLine e) := by
  obtain ⟨hcne, hcch⟩ := hc
  obtain ⟨hpne, hpch⟩ := hp
  refine ⟨by simp [nameStatusLine, hcne], ?_, ?_, ?_⟩
  · intro hmem
    have hmem' : '\n' ∈ e.code ++ ('\t' :: e.path) := hmem
    rcases List.mem_append.mp hmem' with h | h
    · have := (hcch '\n' h).1; simp [goIsSpace] at this
    · rcases List.mem_cons.mp h with h | h
      · exact absurd h (by decide)
      · have := (hpch '\n' h).1; simp [goIsSpace] at this
  · intro c hcm
    rw [show nameStatusLine e = e.code ++ ('\t' :: e.path) from rfl,
      head?_append_left _ _ hcne] at hcm
    exact (hcch c (mem_of_head?_eq _ c hcm)).1
  · intro c hcm
    rw [show nameStatusLine e = e.code ++ ('\t' :: e.path) from rfl,
      List.getLast?_append_cons, ← List.singleton_append,
      List.getLast?_append_of_ne_nil _ hpne] at hcm
    exact (hpch c (mem_of_getLast?_eq _ c hcm)).1

theorem parseNameStatusLine_eval (dr : DiffRepo) (base : GoStr) (e : NameStatusEntry)
    (hc : tokenOk e.code) (hp : tokenOk e.path) :
    parseNameStatusLine dr base (nameStatusLine e)
      = some ⟨e.path, statusOf e.code,
          (if (goFields (dr.numstatVsWorkTree base e.path)).length ≥ 2
           then goAtoi ((goFields (dr.numstatVsWorkTree base e.path)).getD 0 []) else 0),
          (if (goFields (dr.numstatVsWorkTree base e.path)).length ≥ 2
           then goAtoi ((goFields (dr.numstatVsWorkTree base e.path)).getD 1 []) else 0)⟩ := by
  unfold parseNameStatusLine
  rw [if_neg (by simp [nameStatusLine, hc.1])]
  rw [goFields_nameStatusLine e hc hp]
  rw [if_neg (by simp)]
  simp only [List.getD_cons_zero, List.getD_cons_succ]

theorem filterMap_parseNameStatus (dr : DiffRepo) (base : GoStr)
    (es : List NameStatusEntry) (hok : ∀ e ∈ es, tokenOk e.code ∧ tokenOk e.path) :
    (es.map nameStatusLine).filterMap (parseNameStatusLine dr base)
      = es.map (fun e : NameStatusEntry =>
          (⟨e.path, statusOf e.code,
            (if (goFields (dr.numstatVsWorkTree base e.path)).length ≥ 2
             then goAtoi ((goFields (dr.numstatVsWorkTree base e.path)).getD 0 []) else 0),
            (if (goFields (dr.numstatVsWorkTree base e.path)).length ≥ 2
             then goAtoi ((goFields (dr.numstatVsWorkTree base e.path)).getD 1 []) else 0)⟩
            : FileInfo)) := by
  induction es with
  | nil => rfl
  | cons e rest ih =>
    simp only [List.map_cons, List.filterMap_cons]
    rw [parseNameStatusLine_eval dr base e (hok e (by simp)).1 (hok e (by simp)).2]
    rw [ih (fun x hx => hok x (by simp [hx]))]

theorem getDiffFiles_some (dr : DiffRepo) (diffID out : GoStr)
    (h : dr.nameStatusVsWorkTree
        (if diffID = gs "working" then gs "HEAD" else diffID ++ gs "^") = some out) :
    getDiffFiles dr diffID = Except.ok
      (((goSplit '\n' (goTrimSpace out)).filterMap
          (parseNameStatusLine dr
            (if diffID = gs "working" then gs "HEAD" else diffID ++ gs "^"))).insertionSort
        (fun a b => goStrLe a.path b.path = true)) := by
  simp only [getDiffFiles, h]

/-- C7: `getDiffFiles` computes the changed-file set by diffing a base
revision against the live working tree, the base being the commit's
parent (`<id>^`) for a commit id and `HEAD` for `working`; each reported
file becomes a record with the A/D/other status mapping and per-file
counts from a second numstat query against the same base, and the
response is that record set sorted by path. -/
theorem getDiffFiles_base_parent (dr : DiffRepo) (diffID : GoStr)
    (es : List NameStatusEntry) (hne : es ≠ [])
    (hok : ∀ e ∈ es, tokenOk e.code ∧ tokenOk e.path)
    (hout : dr.nameStatusVsWorkTree
        (if diffID = gs "working" then gs "HEAD" else diffID ++ gs "^")
      = some (nameStatusOutput es)) :
    ∃ files, getDiffFiles dr diffID = Except.ok files
      ∧ files.Perm (es.map (fun e : NameStatusEntry =>
          (⟨e.path, statusOf e.code,
            (if (goFields (dr.numstatVsWorkTree
                  (if diffID = gs "working" then gs "HEAD" else diffID ++ gs "^")
                  e.path)).length ≥ 2
             then goAtoi ((goFields (dr.numstatVsWorkTree
                  (if diffID = gs "working" then gs "HEAD" else diffID ++ gs "^")
                  e.path)).getD 0 []) else 0),
            (if (goFields (dr.numstatVsWorkTree
                  (if diffID = gs "working" then gs "HEAD" else diffID ++ gs "^")
                  e.path)).length ≥ 2
             then goAtoi ((goFields (dr.numstatVsWorkTree
                  (if diffID = gs "working" then gs "HEAD" else diffID ++ gs "^")
                  e.path)).getD 1 []) else 0)⟩ : FileInfo)))
      ∧ files.Sorted (fun a b => goStrLe a.path b.path = true) := by
  have hfiles : getDiffFiles dr diffID = Except.ok
      ((es.map (fun e : NameStatusEntry =>
          (⟨e.path, statusOf e.code,
            (if (goFields (dr.numstatVsWorkTree
                  (if diffID = gs "working" then gs "HEAD" else diffID ++ gs "^")
                  e.path)).length ≥ 2
             then goAtoi ((goFields (dr.numstatVsWorkTree
                  (if diffID = gs "working" then gs "HEAD" else diffID ++ gs "^")
                  e.path)).getD 0 []) else 0),
            (if (goFields (dr.numstatVsWorkTree
                  (if diffID = gs "working" then gs "HEAD" else diffID ++ gs "^")
                  e.path)).length ≥ 2
             then goAtoi ((goFields (dr.numstatVsWorkTree
                  (if diffID = gs "working" then gs "HEAD" else diffID ++ gs "^")
                  e.path)).getD 1 []) else 0)⟩ : FileInfo))).insertionSort
        (fun a b => goStrLe a.path b.path = true)) := by
    rw [getDiffFiles_some dr diffID _ hout]
    unfold nameStatusOutput
    rw [lines_of_output _ (by simp [hne]) (by
      intro l hl
      simp only [List.mem_map] at hl
      obtain ⟨e, he, rfl⟩ := hl
      exact nameStatusLine_ok e (hok e he).1 (hok e he).2)]
    rw [filterMap_parseNameStatus dr _ es hok]
  refine ⟨_, hfiles, List.perm_insertionSort _ _, List.sorted_insertionSort _ _⟩

/-- Witness for C7: a commit-id diff over two reported files (one
modified, one added) yields the records sorted by path, computed against
the parent-of-commit base. -/
theorem getDiffFiles_base_parent_witness :
    ∃ files,
      getDiffFiles
        ⟨fun _ => some (nameStatusOutput
            [(⟨gs "M", gs "b.txt"⟩ : NameStatusEntry), ⟨gs "A", gs "a.txt"⟩]),
         fun _ _ => []⟩ (gs "abc")
        = Except.ok files
      ∧ files.Perm [(⟨gs "b.txt", gs "modified", 0, 0⟩ : FileInfo),
          ⟨gs "a.txt", gs "added", 0, 0⟩]
      ∧ files.Sorted (fun a b => goStrLe a.path b.path = true) := by
  obtain ⟨files, h1, h2, h3⟩ := getDiffFiles_base_parent
    ⟨fun _ => some (nameStatusOutput
        [(⟨gs "M", gs "b.txt"⟩ : NameStatusEntry), ⟨gs "A", gs "a.txt"⟩]),
     fun _ _ => []⟩ (gs "abc")
    [(⟨gs "M", gs "b.txt"⟩ : NameStatusEntry), ⟨gs "A", gs "a.txt"⟩]
    (by decide) (by decide) rfl
  exact ⟨files, h1, h2, h3⟩

/-! ### `filepath.Clean` on absolute paths -/

theorem not_mem_splitOn (sep : Char) : ∀ (s : GoStr), ∀ l ∈ s.splitOn sep, sep ∉ l := by
  intro s
  induction s with
  | nil =>
    intro l hl
    simp only [List.splitOn_nil, List.mem_singleton] at hl
    simp [hl]
  | cons c rest ih =>
    intro l hl
    rw [List.splitOn, List.splitOnP_cons] at hl
    by_cases hc : c = sep
    · rw [if_pos (by simp [hc])] at hl
      rcases List.mem_cons.mp hl with h | h
      · subst h; simp
      · exact ih l h
    · rw [if_neg (by simp [hc])] at hl
      cases hsp : List.splitOnP (fun x => x == sep) rest with
      | nil => exact absurd hsp (List.splitOnP_ne_nil _ rest)
      | cons hh tt =>
        rw [hsp, List.modifyHead_cons] at hl
        rcases List.mem_cons.mp hl with h1 | h1
        · subst h1
          intro hmem
          rcases List.mem_cons.mp hmem with h2 | h2
          · exact hc h2.symm
          · exact ih hh (by rw [List.splitOn, hsp]; simp) h2
        · exact ih l (by rw [List.splitOn, hsp]; simp [h1])

theorem resolveDots_mem : ∀ (l acc : List GoStr) (rooted : Bool) (x : GoStr),
    x ∈ resolveDots rooted acc l → x ∈ acc ∨ x ∈ l ∨ x = dotdot
  | [], acc, rooted, x, h => by
    simp only [resolveDots] at h
    exact Or.inl (List.mem_reverse.mp h)
  | part :: rest, [], rooted, x, h => by
    simp only [resolveDots] at h
    by_cases hp : part = dotdot
    · rw [if_pos hp] at h
      rcases resolveDots_mem rest (if rooted then [] else [part]) rooted x h
        with h1 | h1 | h1
      · split at h1
        · simp at h1
        · simp only [List.mem_singleton] at h1
          subst h1
          exact Or.inr (Or.inr hp)
      · exact Or.inr (Or.inl (List.mem_cons_of_mem _ h1))
      · exact Or.inr (Or.inr h1)
    · rw [if_neg hp] at h
      rcases resolveDots_mem rest [part] rooted x h with h1 | h1 | h1
      · simp only [List.mem_singleton] at h1
        subst h1
        exact Or.inr (Or.inl (by simp))
      · exact Or.inr (Or.inl (List.mem_cons_of_mem _ h1))
      · exact Or.inr (Or.inr h1)
  | part :: rest, top :: acc', rooted, x, h => by
    simp only [resolveDots] at h
    by_cases hp : part = dotdot
    · rw [if_pos hp] at h
      by_cases ht : top = dotdot
      · rw [if_pos ht] at h
        rcases resolveDots_mem rest (part :: top :: acc') rooted x h with h1 | h1 | h1
        · rcases List.mem_cons.mp h1 with h2 | h2
          · subst h2; exact Or.inr (Or.inr hp)
          · exact Or.inl h2
        · exact Or.inr (Or.inl (List.mem_cons_of_mem _ h1))
        · exact Or.inr (Or.inr h1)
      · rw [if_neg ht] at h
        rcases resolveDots_mem rest acc' rooted x h with h1 | h1 | h1
        · exact Or.inl (List.mem_cons_of_mem _ h1)
        · exact Or.inr (Or.inl (List.mem_cons_of_mem _ h1))
        · exact Or.inr (Or.inr h1)
    · rw [if_neg hp] at h
      rcases resolveDots_mem rest (part :: top :: acc') rooted x h with h1 | h1 | h1
      · rcases List.mem_cons.mp h1 with h2 | h2
        · subst h2; exact Or.inr (Or.inl (by simp))
        · exact Or.inl h2
      · exact Or.inr (Or.inl (List.mem_cons_of_mem _ h1))
      · exact Or.inr (Or.inr h1)

theorem resolveDots_true_no_dd : ∀ (l acc : List GoStr), dotdot ∉ acc →
    dotdot ∉ resolveDots true acc l
  | [], acc, hacc => by
    simp only [resolveDots]
    simpa using hacc
  | part :: rest, [], hacc => by
    simp only [resolveDots]
    by_cases hp : part = dotdot
    · rw [if_pos hp]
      exact resolveDots_true_no_dd rest _ (by simp)
    · rw [if_neg hp]
      exact resolveDots_true_no_dd rest [part] (by
        intro hm
        simp only [List.mem_singleton] at hm
        exact hp hm.symm)
  | part :: rest, top :: acc', hacc => by
    simp only [resolveDots]
    by_cases hp : part = dotdot
    · rw [if_pos hp]
      by_cases ht : top = dotdot
      · exact absurd
          (show dotdot ∈ top :: acc' by rw [← ht]; exact List.mem_cons_self top acc') hacc
      · rw [if_neg ht]
        exact resolveDots_true_no_dd rest acc' (fun hm => hacc (List.mem_cons_of_mem _ hm))
    · rw [if_neg hp]
      exact resolveDots_true_no_dd rest (part :: top :: acc') (by
        intro hm
        rcases List.mem_cons.mp hm with h | h
        · exact hp h.symm
        · exact hacc h)

theorem resolveDots_no_dd_eq (rooted : Bool) : ∀ (l acc : List GoStr),
    (∀ x ∈ l, x ≠ dotdot) → resolveDots rooted acc l = acc.reverse ++ l
  | [], acc, _ => by simp [resolveDots]
  | part :: rest, [], hl => by
    simp only [resolveDots]
    rw [if_neg (hl part (by simp))]
    rw [resolveDots_no_dd_eq rooted rest [part] (fun x hx => hl x (by simp [hx]))]
    simp
  | part :: rest, top :: acc', hl => by
    simp only [resolveDots]
    rw [if_neg (hl part (by simp))]
    rw [resolveDots_no_dd_eq rooted rest (part :: top :: acc')
      (fun x hx => hl x (by simp [hx]))]
    simp

theorem goSplit_joinPath (ls : List GoStr) (hne : ls ≠ [])
    (h : ∀ l ∈ ls, '/' ∉ l) :
    goSplit '/' (joinPath ls) = ls := by
  induction ls with
  | nil => exact absurd rfl hne
  | cons l rest ih =>
    cases rest with
    | nil => exact goSplit_single '/' l (h l (by simp))
    | cons l' r =>
      show goSplit '/' (l ++ '/' :: joinPath (l' :: r)) = _
      rw [goSplit_append '/' l _ (h l (by simp))]
      rw [ih (by simp) (fun x hx => h x (by simp [hx]))]

theorem goClean_abs_eq (p : GoStr) (hp : goIsAbs p = true) :
    goClean p = '/' :: joinPath (resolveDots true []
      ((goSplit '/' p).filter (fun x => x ≠ [] ∧ x ≠ gs "."))) := by
  have hpne : p ≠ [] := by
    intro h
    rw [h] at hp
    simp [goIsAbs] at hp
  simp only [goClean]
  rw [if_neg hpne, hp]
  simp

theorem cleanParts_props (p : GoStr) :
    ∀ x ∈ resolveDots true [] ((goSplit '/' p).filter (fun x => x ≠ [] ∧ x ≠ gs ".")),
      x ≠ [] ∧ x ≠ gs "." ∧ '/' ∉ x := by
  intro x hx
  rcases resolveDots_mem _ [] true x hx with h | h | h
  · simp at h
  · have hf := List.mem_filter.mp h
    have hpr := of_decide_eq_true hf.2
    exact ⟨hpr.1, hpr.2, not_mem_splitOn '/' p x hf.1⟩
  · subst h
    exact ⟨by simp [dotdot], by decide, by decide⟩

theorem goIsAbs_goClean_abs (p : GoStr) (hp : goIsAbs p = true) :
    goIsAbs (goClean p) = true := by
  rw [goClean_abs_eq p hp]
  rfl

theorem goClean_idem_abs (p : GoStr) (hp : goIsAbs p = true) :
    goClean (goClean p) = goClean p := by
  rw [goClean_abs_eq p hp]
  have hout := cleanParts_props p
  have hnodd : dotdot ∉ resolveDots true []
      ((goSplit '/' p).filter (fun x => x ≠ [] ∧ x ≠ gs ".")) :=
    resolveDots_true_no_dd _ [] (by simp)
  set out := resolveDots true [] ((goSplit '/' p).filter (fun x => x ≠ [] ∧ x ≠ gs "."))
    with hout_def
  rw [goClean_abs_eq ('/' :: joinPath out) rfl]
  congr 2
  have hsplit : goSplit '/' ('/' :: joinPath out) = [] :: goSplit '/' (joinPath out) := by
    have h := goSplit_append '/' [] (joinPath out) (by simp)
    simpa using h
  rw [hsplit]
  cases hcase : out with
  | nil => decide
  | cons x out' =>
    rw [goSplit_joinPath (x :: out') (by simp) (by
      intro l hl
      rw [← hcase] at hl
      exact (hout l hl).2.2)]
    rw [List.filter_cons_of_neg (by decide)]
    rw [List.filter_eq_self.mpr (by
      intro a ha
      rw [← hcase] at ha
      exact decide_eq_true ⟨(hout a ha).1, (hout a ha).2.1⟩)]
    rw [← hcase]
    have h := resolveDots_no_dd_eq true out []
      (fun y hy hne => hnodd (hne ▸ hy))
    simpa using h

/-! ### Evaluating `validateRepoPath` -/

instance (root p : GoStr) : Decidable (specInRoot root p) := by
  unfold specInRoot
  infer_instance

theorem validate_empty_abs (st : SysState) (p : GoStr) (h : p = [] ∨ goIsAbs p = true) :
    validateRepoPath st p = Except.error PathError.invalidPath := by
  unfold validateRepoPath
  rw [if_pos h]

theorem validate_not_tracked (st : SysState) (p : GoStr)
    (h1 : ¬(p = [] ∨ goIsAbs p = true)) (h2 : st.tracked p = false) :
    validateRepoPath st p = Except.error PathError.notTracked := by
  unfold validateRepoPath
  rw [if_neg h1, if_pos (by simp [h2])]

theorem validate_checks (st : SysState) (p : GoStr)
    (hroot : goIsAbs st.gitRoot = true)
    (hpne : p ≠ []) (habs : goIsAbs p = false) (htr : st.tracked p = true) :
    validateRepoPath st p =
      (if specInRoot st.gitRoot p then Except.ok ()
       else Except.error PathError.outsideRepo) := by
  have hrne : st.gitRoot ≠ [] := by
    intro h
    rw [h] at hroot
    simp [goIsAbs] at hroot
  simp only [validateRepoPath]
  rw [if_neg (by simp [hpne, habs])]
  rw [if_neg (by simp [htr])]
  have hjoin : goJoin st.gitRoot p = goClean (st.gitRoot ++ '/' :: p) := by
    unfold goJoin
    rw [if_neg hrne, if_neg hpne]
  have habsfull : goIsAbs (st.gitRoot ++ '/' :: p) = true := by
    cases hg : st.gitRoot with
    | nil => exact absurd hg hrne
    | cons c cs =>
      rw [hg] at hroot
      simpa [goIsAbs] using hroot
  have h1 : goAbs st.cwd st.gitRoot = goClean st.gitRoot := by
    unfold goAbs
    rw [if_pos hroot]
  have h2 : goAbs st.cwd (goJoin st.gitRoot p) = goClean (st.gitRoot ++ '/' :: p) := by
    rw [hjoin]
    unfold goAbs
    rw [if_pos (goIsAbs_goClean_abs _ habsfull)]
    exact goClean_idem_abs _ habsfull
  rw [h2, h1]
  by_cases hsp : specInRoot st.gitRoot p
  · have hcond : ¬(¬ goStartsWith (goClean (st.gitRoot ++ '/' :: p))
        (goClean st.gitRoot ++ ['/']) = true
        ∧ goClean (st.gitRoot ++ '/' :: p) ≠ goClean st.gitRoot) := by
      unfold specInRoot at hsp
      rcases hsp with h | h
      · exact fun hc => hc.2 h
      · intro hc
        apply hc.1
        unfold goStartsWith
        rw [List.isPrefixOf_iff_prefix]
        exact h
    rw [if_neg hcond, if_pos hsp]
  · have hcond : (¬ goStartsWith (goClean (st.gitRoot ++ '/' :: p))
        (goClean st.gitRoot ++ ['/']) = true
        ∧ goClean (st.gitRoot ++ '/' :: p) ≠ goClean st.gitRoot) := by
      unfold specInRoot at hsp
      push_neg at hsp
      refine ⟨?_, hsp.1⟩
      intro hpre
      apply hsp.2
      unfold goStartsWith at hpre
      exact List.isPrefixOf_iff_prefix.mp hpre
    rw [if_pos hcond, if_neg hsp]

/-- C1: for an absolute repository root, `validateRepoPath` succeeds iff
the version-control tool reports the path tracked AND the normalization
of root joined with the path has the root as a prefix (or equals it) —
both checks are required — and empty or absolute paths are always
rejected as invalid. -/
theorem validateRepoPath_ok_iff (st : SysState) (p : GoStr)
    (hroot : goIsAbs st.gitRoot = true) :
    (validateRepoPath st p = Except.ok () ↔
      (st.tracked p = true ∧ specInRoot st.gitRoot p ∧ p ≠ [] ∧ goIsAbs p = false))
    ∧ ((p = [] ∨ goIsAbs p = true) →
      validateRepoPath st p = Except.error PathError.invalidPath) := by
  refine ⟨⟨?_, ?_⟩, validate_empty_abs st p⟩
  · intro hok
    by_cases h1 : p = [] ∨ goIsAbs p = true
    · rw [validate_empty_abs st p h1] at hok
      exact absurd hok (by simp)
    · have hpne : p ≠ [] := fun h => h1 (Or.inl h)
      have habs' : goIsAbs p = false := by
        cases hb : goIsAbs p with
        | true => exact absurd (Or.inr hb) h1
        | false => rfl
      cases hb2 : st.tracked p with
      | false =>
        rw [validate_not_tracked st p h1 hb2] at hok
        exact absurd hok (by simp)
      | true =>
        rw [validate_checks st p hroot hpne habs' hb2] at hok
        by_cases hsp : specInRoot st.gitRoot p
        · exact ⟨rfl, hsp, hpne, habs'⟩
        · rw [if_neg hsp] at hok
          exact absurd hok (by simp)
  · rintro ⟨htr, hsp, hpne, habs⟩
    rw [validate_checks st p hroot hpne habs htr, if_pos hsp]

/-- Witness for C1: a tracked relative path inside an absolute root. -/
theorem validateRepoPath_ok_iff_witness :
    (validateRepoPath ⟨gs "/repo", gs "/repo", fun _ => true, []⟩ (gs "a.txt")
        = Except.ok () ↔
      ((⟨gs "/repo", gs "/repo", fun _ => true, []⟩ : SysState).tracked (gs "a.txt") = true
        ∧ specInRoot (⟨gs "/repo", gs "/repo", fun _ => true, []⟩ : SysState).gitRoot
            (gs "a.txt")
        ∧ gs "a.txt" ≠ [] ∧ goIsAbs (gs "a.txt") = false))
    ∧ ((gs "a.txt" = [] ∨ goIsAbs (gs "a.txt") = true) →
      validateRepoPath ⟨gs "/repo", gs "/repo", fun _ => true, []⟩ (gs "a.txt")
        = Except.error PathError.invalidPath) :=
  validateRepoPath_ok_iff ⟨gs "/repo", gs "/repo", fun _ => true, []⟩ (gs "a.txt")
    (by decide)

/-- C2: a path with `..` segments whose normalized join with the root
falls outside the root is always rejected, whatever the tracked-file
oracle says; and when the tracked check would pass (and the path is
relative), the rejection taken is precisely the escaping-path error
branch. -/
theorem validateRepoPath_escaping_fails (st : SysState) (p : GoStr)
    (hroot : goIsAbs st.gitRoot = true)
    (hdd : dotdot ∈ goSplit '/' p)
    (hesc : ¬ specInRoot st.gitRoot p) :
    validateRepoPath st p ≠ Except.ok ()
    ∧ (st.tracked p = true → goIsAbs p = false →
        validateRepoPath st p = Except.error PathError.outsideRepo) := by
  have hpne : p ≠ [] := by
    intro h
    rw [h] at hdd
    revert hdd
    decide
  constructor
  · intro hok
    by_cases h1 : p = [] ∨ goIsAbs p = true
    · rw [validate_empty_abs st p h1] at hok
      exact absurd hok (by simp)
    · have habs' : goIsAbs p = false := by
        cases hb : goIsAbs p with
        | true => exact absurd (Or.inr hb) h1
        | false => rfl
      cases hb2 : st.tracked p with
      | false =>
        rw [validate_not_tracked st p h1 hb2] at hok
        exact absurd hok (by simp)
      | true =>
        rw [validate_checks st p hroot hpne habs' hb2, if_neg hesc] at hok
        exact absurd hok (by simp)
  · intro htr habs
    rw [validate_checks st p hroot hpne habs htr, if_neg hesc]

/-- Witness for C2: `../secret` under root `/repo` is rejected with the
outside-repository error even though the tracked oracle reports it
tracked. -/
theorem validateRepoPath_escaping_fails_witness :
    validateRepoPath ⟨gs "/w", gs "/repo", fun _ => true, []⟩ (gs "../secret")
      ≠ Except.ok ()
    ∧ ((⟨gs "/w", gs "/repo", fun _ => true, []⟩ : SysState).tracked (gs "../secret") = true
        → goIsAbs (gs "../secret") = false →
        validateRepoPath ⟨gs "/w", gs "/repo", fun _ => true, []⟩ (gs "../secret")
          = Except.error PathError.outsideRepo) :=
  validateRepoPath_escaping_fails ⟨gs "/w", gs "/repo", fun _ => true, []⟩ (gs "../secret")
    (by decide) (by decide) (by decide)
